import Mathlib

/-!
Shallow embedding of the "AI Hindi Video Agent" single-page tool:
  * `src/app/page.tsx` — script generation (`generateHindiScript`), caption
    line wrapping (`splitIntoLines`), and the frame-writing loop of `render`
    (frame counts, filenames, progress values);
  * the upload-relay route handler (`POST`) that validates a multipart form
    and forwards it to the remote video-upload API.

Strings are modelled as `List Char` (JavaScript strings of BMP code points),
JavaScript numbers as exact rationals `ℚ`, and the remote API response as an
explicit parameter of the relay function.
-/

/-! ## JavaScript character classes and `String.prototype.trim` -/

/-- Characters matched by the ECMAScript `LineTerminator` production. -/
def isLineTerm (c : Char) : Bool :=
  c = '\n' || c = '\r' || c = Char.ofNat 0x2028 || c = Char.ofNat 0x2029

/-- Characters matched by `.` in a JavaScript regex without the `s` flag:
everything except a line terminator. -/
def isDotChar (c : Char) : Bool := !(isLineTerm c)

/-- Characters matched by `\s` in a JavaScript regex (WhiteSpace ∪
LineTerminator); this is also the set removed by `String.prototype.trim`. -/
def jsWhitespace (c : Char) : Bool :=
  c = ' ' || c = '\t' || c = '\n' || c = '\r' ||
  c = Char.ofNat 0x0b || c = Char.ofNat 0x0c || c = Char.ofNat 0xa0 ||
  c = Char.ofNat 0x1680 || (0x2000 ≤ c.toNat && c.toNat ≤ 0x200a) ||
  c = Char.ofNat 0x2028 || c = Char.ofNat 0x2029 || c = Char.ofNat 0x202f ||
  c = Char.ofNat 0x205f || c = Char.ofNat 0x3000 || c = Char.ofNat 0xfeff

/-- Model of `s.trim()`: drop JavaScript whitespace from both ends. -/
def jsTrim (l : List Char) : List Char :=
  ((l.dropWhile jsWhitespace).reverse.dropWhile jsWhitespace).reverse

/-! ## Upload relay (`POST` route handler)

The handler reads `pageId`, `accessToken`, `description` and `file` from the
multipart form, answers 400 when validation fails, otherwise forwards the
form to the remote API and relays its response.  The remote call is modelled
as an explicit pair: the `ok` flag of the HTTP response and its JSON body. -/

/-- JSON-like values produced by `res.json()`, extended with `undefined` so
that optional chaining (`data?.error?.message`) can be modelled. -/
inductive Js where
  | null : Js
  | undefined : Js
  | bool (b : Bool) : Js
  | num (q : ℚ) : Js
  | str (s : List Char) : Js
  | arr (elems : List Js) : Js
  | obj (fields : List (List Char × Js)) : Js

/-- JavaScript truthiness of a modelled JSON value. -/
def truthy : Js → Bool
  | .null => false
  | .undefined => false
  | .bool b => b
  | .num q => !(q = 0)
  | .str s => !s.isEmpty
  | .arr _ => true
  | .obj _ => true

/-- Optional-chaining property access `v?.key`: a lookup on objects,
`undefined` on everything else. -/
def propGet (j : Js) (key : List Char) : Js :=
  match j with
  | .obj fields =>
      match fields.lookup key with
      | some v => v
      | none => .undefined
  | _ => .undefined

/-- A value stored in a multipart form: either a plain string field or a
binary file part (`File`), here carried as a byte list. -/
inductive FormVal where
  | str (s : List Char) : FormVal
  | file (content : List Nat) : FormVal

/-- Model of `form.get(key)`: the first entry under `key`, or `null`. -/
def formGet (form : List (List Char × FormVal)) (key : List Char) :
    Option FormVal :=
  form.lookup key

/-- Model of `String(form.get(key) || "")`: `null` and the empty string both
become `""`; a `File` value stringifies to `"[object File]"`. -/
def jsStringOfGet (v : Option FormVal) : List Char :=
  match v with
  | none => []
  | some (.str s) => s
  | some (.file _) => "[object File]".toList

/-- Model of `!file || !(file instanceof File)` on the raw `form.get("file")`
result: true for `null` and for any string value, false for a `File`. -/
def fileFieldInvalid (v : Option FormVal) : Bool :=
  match v with
  | some (.file _) => false
  | _ => true

/-- An HTTP response produced by the relay: status code and JSON body. -/
structure RelayResponse where
  status : Nat
  body : Js

/-- Body of the 400 validation answer. -/
def missingFieldsBody : Js :=
  .obj [("error".toList, .str "Missing required fields".toList)]

/-- Body of the 500 answer on a non-OK remote response:
`{error: data?.error?.message || "Facebook upload failed"}`. -/
def uploadErrorBody (data : Js) : Js :=
  let m := propGet (propGet data "error".toList) "message".toList
  .obj [("error".toList,
         if truthy m then m else .str "Facebook upload failed".toList)]

/-- The relay route handler.  `remoteOk`/`remoteJson` stand for the `ok`
flag and parsed JSON body of the `fetch` to the remote upload API; on the
400 path the code returns before that call is made, which shows up here as
the result not depending on these two parameters. -/
def POST (form : List (List Char × FormVal)) (remoteOk : Bool)
    (remoteJson : Js) : RelayResponse :=
  let pageId := jsStringOfGet (formGet form "pageId".toList)
  let accessToken := jsStringOfGet (formGet form "accessToken".toList)
  let file := formGet form "file".toList
  if pageId.isEmpty || accessToken.isEmpty || fileFieldInvalid file then
    ⟨400, missingFieldsBody⟩
  else if !remoteOk then
    ⟨500, uploadErrorBody remoteJson⟩
  else
    ⟨200, remoteJson⟩

/-- Validation predicate of the relay, mirroring the negation of the guard
in `POST`: both string fields stringify to something non-empty and the
`file` field is an actual `File`. -/
def formOK (form : List (List Char × FormVal)) : Bool :=
  !((jsStringOfGet (formGet form "pageId".toList)).isEmpty ||
    (jsStringOfGet (formGet form "accessToken".toList)).isEmpty ||
    fileFieldInvalid (formGet form "file".toList))

/-! ## Script generator (`generateHindiScript`) and line wrapper
(`splitIntoLines`)

The repository file is committed with mojibake: every Devanagari code point
appears literally as `?` in the source, so the embedded literals below use
those exact `?` characters. -/

/-- The fixed placeholder script `SAMPLE_LINES`. -/
def SAMPLE_LINES : List (List Char) :=
  [ "??????! ?? ?? ?? ???? ???? ?? ??? ???????".toList,
    "?? ?????? ???? ??? ?? ?????? ????? ?? ????????".toList,
    "???? ??????? ?? ??? ???? ???? ? ?????!".toList ]

/-- Model of `generateHindiScript`: placeholder lines for a blank topic,
otherwise three template lines.  Note that only the first two templates
interpolate `topic.trim()`; the third is a fixed string. -/
def generateHindiScript (topic : List Char) : List (List Char) :=
  if (jsTrim topic).isEmpty then SAMPLE_LINES
  else
    [ "??????! ???? ".toList ++ jsTrim topic ++ " ?? ???? ??? ????? ????".toList,
      jsTrim topic ++ " ?? ????? ?? ??? ?? ???? ?????? ?? ??????".toList,
      "??? ?? ?????? ??? ?? ???? ?? ???? ?????".toList ]

/-- Backtracking condition of the regex `/.{1,40}(\s|$)/` at offset `k` of
the remainder `l`: the greedy atom `.{1,40}` can cover `l.take k` (all
non-line-terminators, `1 ≤ k ≤ 40`) and the tail group matches — either a
whitespace character sits at position `k` or `k` is the end of the input. -/
def goodK (l : List Char) (k : Nat) : Bool :=
  decide (1 ≤ k) && decide (k ≤ l.length) && (l.take k).all isDotChar &&
    (decide (k = l.length) ||
      (match l[k]? with
       | some c => jsWhitespace c
       | none => false))

/-- Greedy backtracking of `.{1,40}`: try the atom length `n, n-1, …, 1` and
keep the first (largest) length whose tail group also matches. -/
def bestK (l : List Char) : Nat → Option Nat
  | 0 => none
  | k + 1 => if goodK l (k + 1) then some (k + 1) else bestK l k

/-- Length of the `.{1,40}` atom of the leftmost regex match starting at the
head of `l`, if the regex matches there at all. -/
def tryMatchLen (l : List Char) : Option Nat := bestK l 40

/-- Global matching loop of `t.match(/.{1,40}(\s|$)/g)` from a given
position: emit the leftmost match (the matched substring includes the
consumed whitespace character, if any), continue after it; advance one
character when no match starts here.  `fuel` bounds the recursion and is
instantiated with the string length. -/
def matchesAux : Nat → List Char → List (List Char)
  | 0, _ => []
  | fuel + 1, l =>
    if l.isEmpty then []
    else
      match tryMatchLen l with
      | some k =>
          let consumed := if k = l.length then k else k + 1
          l.take consumed :: matchesAux fuel (l.drop consumed)
      | none => matchesAux fuel l.tail

/-- All matches of `/.{1,40}(\s|$)/g` on `l`, in order. -/
def jsMatchAll (l : List Char) : List (List Char) := matchesAux l.length l

/-- One arm of the `flatMap` in `splitIntoLines`:
`t.length > 40 ? t.match(/.{1,40}(\s|$)/g) ?? [t] : [t]`. -/
def wrapLine (t : List Char) : List (List Char) :=
  if 40 < t.length then
    match jsMatchAll t with
    | [] => [t]
    | ms => ms
  else [t]

/-- Model of `splitIntoLines`: wrap each text, trim every chunk, drop the
empty ones. -/
def splitIntoLines (texts : List (List Char)) : List (List Char) :=
  ((texts.map wrapLine).flatten.map jsTrim).filter (fun s => !s.isEmpty)

/-! ## Video assembler arithmetic and frame-writing loop (`render`) -/

/-- Model of `Math.round` on exact rationals: round half towards `+∞`. -/
def jsRound (x : ℚ) : ℤ := ⌊x + 1 / 2⌋

/-- Model of the `render` computation
`perLineMs = Math.round(durationPerLine * 1000)`;
`framesPerLine = Math.max(1, Math.floor((perLineMs / 1000) * 30))`. -/
def framesPerLine (d : ℚ) : ℤ :=
  let perLineMs : ℤ := jsRound (d * 1000)
  max 1 ⌊((perLineMs : ℚ) / 1000) * 30⌋

/-- Model of `const allLines = lines.length ? lines : SAMPLE_LINES`. -/
def allLinesOf (lines : List (List Char)) : List (List Char) :=
  if lines.isEmpty then SAMPLE_LINES else lines

/-- Model of `const totalFrames = allLines.length * framesPerLine`. -/
def totalFramesOf (lines : List (List Char)) (d : ℚ) : Nat :=
  (allLinesOf lines).length * (framesPerLine d).toNat

/-- Model of `String(i).padStart(4, "0")` composed into the frame filename
`` `frame_${...}.png` ``. -/
def padStart (l : List Char) (n : Nat) (c : Char) : List Char :=
  List.replicate (n - l.length) c ++ l

/-- Filename under which frame `i` is written into the encoder filesystem. -/
def frameFilename (i : Nat) : List Char :=
  "frame_".toList ++ padStart (Nat.repr i).toList 4 '0' ++ ".png".toList

/-- The nested frame-writing loop of `render`: for each script line, `fpl`
frames are produced; the running counter `frameIndex` names the file and
yields the progress value `(frameIndex + 1) / total` reported to the render
state after the frame is written.  Each emitted triple is
(frame index, filename, progress). -/
def writeFrames :
    List (List Char) → Nat → Nat → Nat → List (Nat × List Char × ℚ)
  | [], _, _, _ => []
  | _line :: rest, fpl, total, frameIndex =>
      (List.range fpl).map (fun fi =>
        (frameIndex + fi, frameFilename (frameIndex + fi),
         ((frameIndex : ℚ) + fi + 1) / total)) ++
      writeFrames rest fpl total (frameIndex + fpl)

/-- The frame sequence written by one `render` invocation. -/
def renderFrames (lines : List (List Char)) (d : ℚ) :
    List (Nat × List Char × ℚ) :=
  writeFrames (allLinesOf lines) (framesPerLine d).toNat
    (totalFramesOf lines d) 0

/-! ## Substring predicate used to state the script-generator claims -/

/-- Boolean prefix test between character lists. -/
def startsWith : List Char → List Char → Bool
  | _, [] => true
  | [], _ :: _ => false
  | c :: l, p :: ps => c = p && startsWith l ps

/-- Boolean substring test: `pat` occurs contiguously inside `l`. -/
def hasSub : List Char → List Char → Bool
  | [], pat => pat.isEmpty
  | l@(_ :: t), pat => startsWith l pat || hasSub t pat

/-! ## Specification-side vocabulary for the line-wrapper claims -/

/-- Characters that can appear inside a caption word: matched by `.` and not
by `\s`. -/
def isWordChar (c : Char) : Bool := isDotChar c && !jsWhitespace c

/-- Single-space join of a word list; this is the "joining the chunks with
single spaces" operation of the specification. -/
def joinWords : List (List Char) → List Char
  | [] => []
  | [w] => w
  | w :: ws => w ++ ' ' :: joinWords ws

/-- A caption in canonical form: a non-empty sequence of non-empty words of
word characters, each word at most 40 characters long (the words are joined
by single spaces by `joinWords`). -/
def canonicalWords (ws : List (List Char)) : Prop :=
  ws ≠ [] ∧ ∀ w ∈ ws, w ≠ [] ∧ w.length ≤ 40 ∧ ∀ c ∈ w, isWordChar c = true

/-! ## Concrete fixtures used in counterexamples and witnesses -/

/-- A relay form carrying all three mandatory fields with non-empty values
and an actual file part. -/
def validFormEx : List (List Char × FormVal) :=
  [("pageId".toList, .str "123".toList),
   ("accessToken".toList, .str "tok".toList),
   ("file".toList, .file [0, 1, 2])]

/-- A remote JSON failure body that does carry `error.message`. -/
def dataEx : Js :=
  .obj [("error".toList, .obj [("message".toList, .str "boom".toList)])]

/-! ## Helper lemmas -/

theorem startsWith_app (b c : List Char) : startsWith (b ++ c) b = true := by
  induction b with
  | nil => cases c <;> rfl
  | cons x xs ih => simpa [startsWith] using ih

theorem hasSub_of_startsWith {l pat : List Char}
    (h : startsWith l pat = true) : hasSub l pat = true := by
  cases l with
  | nil =>
      cases pat with
      | nil => rfl
      | cons p ps => simp [startsWith] at h
  | cons c t => simp [hasSub, h]

theorem hasSub_append_left (a : List Char) {l pat : List Char}
    (h : hasSub l pat = true) : hasSub (a ++ l) pat = true := by
  induction a with
  | nil => simpa using h
  | cons c t ih => simp [hasSub, ih]

theorem formOK_guard {form : List (List Char × FormVal)}
    (h : formOK form = true) :
    ((jsStringOfGet (formGet form "pageId".toList)).isEmpty ||
     (jsStringOfGet (formGet form "accessToken".toList)).isEmpty ||
     fileFieldInvalid (formGet form "file".toList)) = false := by
  simpa [formOK] using h

/-! ## Claims C4 and C10: relay validation -/

/-- C4: a multipart relay request in which any of the mandatory fields
`pageId`, `accessToken` or `file` is absent is answered with HTTP 400 and
the JSON body `{error: "Missing required fields"}`, independently of the
remote API (the result does not depend on `remoteOk`/`remoteJson`, i.e. the
remote API is not contacted). -/
theorem relay_missing_field_400 (form : List (List Char × FormVal))
    (remoteOk : Bool) (remoteJson : Js)
    (h : formGet form "pageId".toList = none ∨
         formGet form "accessToken".toList = none ∨
         formGet form "file".toList = none) :
    POST form remoteOk remoteJson = ⟨400, missingFieldsBody⟩ := by
  unfold POST
  rcases h with h | h | h <;> rw [h] <;> simp [jsStringOfGet, fileFieldInvalid]

/-- Witness for C4: the empty form lacks all three fields. -/
theorem relay_missing_field_400_witness :
    POST [] true Js.null = ⟨400, missingFieldsBody⟩ :=
  relay_missing_field_400 [] true Js.null (Or.inl rfl)

/-- C10: the relay also answers 400 with the same body when `pageId` or
`accessToken` is present as the empty string, or when `file` is present but
is a plain string form value rather than a binary file part — again without
contacting the remote API. -/
theorem relay_falsy_field_400 (form : List (List Char × FormVal))
    (remoteOk : Bool) (remoteJson : Js)
    (h : formGet form "pageId".toList = some (.str []) ∨
         formGet form "accessToken".toList = some (.str []) ∨
         (∃ s, formGet form "file".toList = some (.str s))) :
    POST form remoteOk remoteJson = ⟨400, missingFieldsBody⟩ := by
  unfold POST
  rcases h with h | h | ⟨s, h⟩ <;> rw [h] <;> simp [jsStringOfGet, fileFieldInvalid]

/-- Witness for C10: a form whose `pageId` is the empty string. -/
theorem relay_falsy_field_400_witness :
    POST [("pageId".toList, .str [])] false (Js.str "x".toList) =
      ⟨400, missingFieldsBody⟩ :=
  relay_falsy_field_400 [("pageId".toList, .str [])] false
    (Js.str "x".toList) (Or.inl rfl)

/-! ## Claim C3: relay of the remote result -/

/-- Counterexample for C3: with all required fields present and a non-OK
remote response whose JSON body is `null` — so it carries no
`error.message` at all — the relay's `error` field is the hard-coded
fallback string `"Facebook upload failed"`, not a message taken from the
remote response. -/
theorem relay_error_fallback_counterexample :
    POST validFormEx false Js.null =
      ⟨500, .obj [("error".toList, .str "Facebook upload failed".toList)]⟩ ∧
    propGet (propGet Js.null "error".toList) "message".toList = Js.undefined := by
  exact ⟨rfl, rfl⟩

/-- C3 (amended): for a request passing validation, a 200-OK remote
response is passed through unchanged with HTTP 200; a non-OK remote
response yields HTTP 500 whose `error` field is the remote `error.message`
when that value exists and is truthy, and the fixed string
`"Facebook upload failed"` otherwise. -/
theorem relay_forwards_remote (form : List (List Char × FormVal)) (data : Js)
    (h : formOK form = true) :
    POST form true data = ⟨200, data⟩ ∧
    (truthy (propGet (propGet data "error".toList) "message".toList) = true →
      POST form false data =
        ⟨500, .obj [("error".toList,
          propGet (propGet data "error".toList) "message".toList)]⟩) ∧
    (truthy (propGet (propGet data "error".toList) "message".toList) = false →
      POST form false data =
        ⟨500, .obj [("error".toList, .str "Facebook upload failed".toList)]⟩) := by
  have hg := formOK_guard h
  refine ⟨?_, fun ht => ?_, fun hf => ?_⟩
  · unfold POST
    simp only [hg]
    simp
  · unfold POST
    simp only [hg]
    show (⟨500, uploadErrorBody data⟩ : RelayResponse) = _
    simp only [uploadErrorBody]
    rw [if_pos ht]
  · unfold POST
    simp only [hg]
    show (⟨500, uploadErrorBody data⟩ : RelayResponse) = _
    simp only [uploadErrorBody]
    have hf' :
        ¬(truthy (propGet (propGet data "error".toList) "message".toList)
            = true) := by
      rw [hf]; exact Bool.false_ne_true
    rw [if_neg hf']

/-- Witness for C3: the concrete valid form, with a remote body that does
carry `error.message = "boom"`. -/
theorem relay_forwards_remote_witness :
    POST validFormEx true dataEx = ⟨200, dataEx⟩ ∧
    POST validFormEx false dataEx =
      ⟨500, .obj [("error".toList, .str "boom".toList)]⟩ := by
  have h := relay_forwards_remote validFormEx dataEx (by rfl)
  exact ⟨h.1, h.2.1 (by rfl)⟩

/-! ## Claim C6: script generator -/

/-- Counterexample for C6: for the non-blank topic `"abc"` not every
generated line contains the trimmed topic — the third template line has no
interpolation slot. -/
theorem script_topic_missing_in_third_line :
    jsTrim "abc".toList ≠ [] ∧
    (generateHindiScript "abc".toList).all
      (fun l => hasSub l (jsTrim "abc".toList)) = false :=
  ⟨by decide, by decide⟩

/-- C6 (amended): a blank topic yields the fixed placeholder sequence;
a non-blank topic deterministically yields exactly 3 lines, of which the
first two contain the trimmed topic as a substring. -/
theorem script_generator_three_lines (topic : List Char) :
    (jsTrim topic = [] → generateHindiScript topic = SAMPLE_LINES) ∧
    (jsTrim topic ≠ [] →
      (generateHindiScript topic).length = 3 ∧
      ∀ l ∈ (generateHindiScript topic).take 2,
        hasSub l (jsTrim topic) = true) := by
  constructor
  · intro h
    simp [generateHindiScript, h]
  · intro h
    have hne : (jsTrim topic).isEmpty = false := by
      simp [List.isEmpty_iff, h]
    have hcond : ¬((jsTrim topic).isEmpty = true) := by
      rw [hne]; exact Bool.false_ne_true
    refine ⟨by rw [generateHindiScript, if_neg hcond]; rfl, ?_⟩
    intro l hl
    rw [generateHindiScript, if_neg hcond] at hl
    cases hl with
    | head =>
        rw [List.append_assoc]
        exact hasSub_append_left _
          (hasSub_of_startsWith (startsWith_app _ _))
    | tail _ hl2 =>
        cases hl2 with
        | head => exact hasSub_of_startsWith (startsWith_app _ _)
        | tail _ hl3 => cases hl3

/-- Witness for C6: the topic `"AI"`. -/
theorem script_generator_three_lines_witness :
    (generateHindiScript "AI".toList).length = 3 ∧
    ∀ l ∈ (generateHindiScript "AI".toList).take 2,
      hasSub l (jsTrim "AI".toList) = true :=
  (script_generator_three_lines "AI".toList).2 (by decide)

/-! ## Claim C1: frame-count arithmetic -/

/-- Counterexample for C1: at `secondsPerLine = 1.99` the code's
`framesPerLine` (floor-based, via milliseconds) is 59 while
`round(secondsPerLine × 30)` is 60. -/
theorem framesPerLine_not_round :
    (0 : ℚ) < 199 / 100 ∧
    framesPerLine (199 / 100) ≠ jsRound ((199 / 100) * 30) := by
  refine ⟨by norm_num, ?_⟩
  have hi : (⌊(199 / 100 : ℚ) * 1000 + 1 / 2⌋ : ℤ) = 1990 := by norm_num
  have h1 : framesPerLine (199 / 100) = 59 := by
    show max 1 ⌊(((⌊(199 / 100 : ℚ) * 1000 + 1 / 2⌋ : ℤ) : ℚ) / 1000) * 30⌋ = 59
    rw [hi]; norm_num
  have h2 : jsRound ((199 / 100) * 30) = 60 := by
    show (⌊(199 / 100 : ℚ) * 30 + 1 / 2⌋ : ℤ) = 60
    norm_num
  omega

/-- C1 (amended): for every `secondsPerLine` that is a positive multiple of
0.5 — which covers every value reachable through the UI's step-0.5 numeric
input — `framesPerLine` does equal `round(secondsPerLine × 30)`, and
`totalFrames` equals the line count times that value. -/
theorem framesPerLine_half_multiples (n : ℕ) (hn : 1 ≤ n)
    (lines : List (List Char)) :
    framesPerLine ((n : ℚ) / 2) = jsRound (((n : ℚ) / 2) * 30) ∧
    totalFramesOf lines ((n : ℚ) / 2) =
      (allLinesOf lines).length * (jsRound (((n : ℚ) / 2) * 30)).toNat := by
  have h500 : (⌊((n : ℚ) / 2) * 1000 + 1 / 2⌋ : ℤ) = 500 * n := by
    have he : ((n : ℚ) / 2) * 1000 + 1 / 2 = ((500 * n : ℤ) : ℚ) + 1 / 2 := by
      push_cast; ring
    rw [he, Int.floor_eq_iff]
    constructor <;> push_cast <;> linarith
  have h15 : (⌊(((500 * n : ℤ) : ℚ)) / 1000 * 30⌋ : ℤ) = 15 * n := by
    have he : (((500 * n : ℤ) : ℚ)) / 1000 * 30 = ((15 * n : ℤ) : ℚ) := by
      push_cast; ring
    rw [he, Int.floor_intCast]
  have hround : jsRound (((n : ℚ) / 2) * 30) = 15 * n := by
    show (⌊((n : ℚ) / 2) * 30 + 1 / 2⌋ : ℤ) = 15 * n
    have he : ((n : ℚ) / 2) * 30 + 1 / 2 = ((15 * n : ℤ) : ℚ) + 1 / 2 := by
      push_cast; ring
    rw [he, Int.floor_eq_iff]
    constructor <;> push_cast <;> linarith
  have h1 : framesPerLine ((n : ℚ) / 2) = 15 * n := by
    show max 1 ⌊(((⌊((n : ℚ) / 2) * 1000 + 1 / 2⌋ : ℤ) : ℚ) / 1000) * 30⌋ = 15 * n
    rw [h500, h15]
    have : (1 : ℤ) ≤ 15 * n := by
      have : (1 : ℤ) ≤ (n : ℤ) := by exact_mod_cast hn
      linarith
    omega
  refine ⟨by rw [h1, hround], ?_⟩
  unfold totalFramesOf
  rw [h1, hround]

/-- Witness for C1 (amended): `secondsPerLine = 2.5` (that is `n = 5`), the
default configuration. -/
theorem framesPerLine_half_multiples_witness :
    framesPerLine (((5 : ℕ) : ℚ) / 2) = jsRound ((((5 : ℕ) : ℚ) / 2) * 30) ∧
    totalFramesOf [] (((5 : ℕ) : ℚ) / 2) =
      (allLinesOf []).length * (jsRound ((((5 : ℕ) : ℚ) / 2) * 30)).toNat :=
  framesPerLine_half_multiples 5 (by decide) []

/-! ## Helper lemmas about the frame-writing loop -/

theorem writeFrames_eq (L : List (List Char)) (fpl total : Nat) :
    ∀ k, writeFrames L fpl total k =
      (List.range (L.length * fpl)).map (fun i =>
        (k + i, frameFilename (k + i), ((k : ℚ) + i + 1) / total)) := by
  induction L with
  | nil => intro k; simp [writeFrames]
  | cons x rest ih =>
      intro k
      have hlen : (x :: rest).length * fpl = fpl + rest.length * fpl := by
        simp [List.length_cons, Nat.succ_mul, Nat.add_comm]
      rw [writeFrames, ih (k + fpl), hlen, List.range_add, List.map_append,
        List.map_map]
      congr 1
      refine List.map_congr_left fun i _ => ?_
      simp only [Function.comp, Prod.mk.injEq]
      exact ⟨by omega, by rw [Nat.add_assoc], by push_cast; ring⟩

theorem renderFrames_eq (lines : List (List Char)) (d : ℚ) :
    renderFrames lines d =
      (List.range (totalFramesOf lines d)).map (fun i =>
        (i, frameFilename i, ((i : ℚ) + 1) / (totalFramesOf lines d))) := by
  unfold renderFrames totalFramesOf
  rw [writeFrames_eq]
  refine List.map_congr_left fun i _ => ?_
  simp only [Prod.mk.injEq]
  exact ⟨by omega, by rw [Nat.zero_add], by push_cast; ring⟩

theorem framesPerLine_toNat_pos (d : ℚ) : 1 ≤ (framesPerLine d).toNat := by
  have h : (1 : ℤ) ≤ framesPerLine d := le_max_left _ _
  omega

theorem allLinesOf_length_pos (lines : List (List Char)) :
    1 ≤ (allLinesOf lines).length := by
  unfold allLinesOf
  by_cases h : lines.isEmpty
  · simp [h, SAMPLE_LINES]
  · rw [if_neg h]
    cases lines with
    | nil => simp at h
    | cons a t => simp

theorem totalFramesOf_pos (lines : List (List Char)) (d : ℚ) :
    0 < totalFramesOf lines d :=
  Nat.mul_pos (allLinesOf_length_pos lines) (framesPerLine_toNat_pos d)

/-! ## Claims C7, C5, C9: the frame-writing loop -/

/-- C7: during one render invocation the frame files are written under the
zero-padded names `frame_0000.png`, `frame_0001.png`, … in strictly
increasing index order: the emitted index sequence is exactly
`0, 1, …, totalFrames − 1` (no index skipped or duplicated) and the emitted
filename sequence is exactly `frameFilename` applied to that range. -/
theorem render_frame_indices_exact (lines : List (List Char)) (d : ℚ) :
    (renderFrames lines d).map (fun f => f.1) =
      List.range (totalFramesOf lines d) ∧
    (renderFrames lines d).map (fun f => f.2.1) =
      (List.range (totalFramesOf lines d)).map frameFilename ∧
    frameFilename 0 = "frame_0000.png".toList ∧
    frameFilename 1 = "frame_0001.png".toList := by
  refine ⟨?_, ?_, by decide, by decide⟩
  · rw [renderFrames_eq, List.map_map]
    have hc : ((fun f : ℕ × List Char × ℚ => f.1) ∘
        (fun i : ℕ => (i, frameFilename i,
          ((i : ℚ) + 1) / (totalFramesOf lines d)))) = fun i : ℕ => i := rfl
    rw [hc, List.map_id']
  · rw [renderFrames_eq, List.map_map]
    rfl

/-- C5: over a non-empty line list the progress values emitted by the
render loop, `(frameIndex + 1) / totalFrames` in frame order, are strictly
increasing and the last one equals 1. -/
theorem render_progress_strictly_increasing (lines : List (List Char))
    (d : ℚ) (_hne : lines ≠ []) :
    List.Pairwise (· < ·)
      ((renderFrames lines d).map (fun f => f.2.2)) ∧
    ((renderFrames lines d).map (fun f => f.2.2)).getLast? = some 1 := by
  have hT : 0 < totalFramesOf lines d := totalFramesOf_pos lines d
  have hTq : (0 : ℚ) < (totalFramesOf lines d : ℚ) := by exact_mod_cast hT
  rw [renderFrames_eq, List.map_map]
  constructor
  · refine List.Pairwise.map _ ?_ (List.pairwise_lt_range _)
    intro a b hab
    simp only [Function.comp]
    rw [div_lt_div_iff_of_pos_right hTq]
    have : (a : ℚ) < b := by exact_mod_cast hab
    linarith
  · obtain ⟨m, hm⟩ : ∃ m, totalFramesOf lines d = m + 1 :=
      ⟨totalFramesOf lines d - 1, by omega⟩
    rw [hm, List.range_succ, List.map_append]
    simp only [List.map_cons, List.map_nil, Function.comp]
    rw [List.getLast?_concat]
    congr 1
    rw [div_eq_one_iff_eq (by positivity)]
    push_cast
    ring

/-- Witness for C5: one line, `secondsPerLine = 1/30`. -/
theorem render_progress_strictly_increasing_witness :
    List.Pairwise (· < ·)
      ((renderFrames ["x".toList] (1 / 30)).map (fun f => f.2.2)) ∧
    ((renderFrames ["x".toList] (1 / 30)).map (fun f => f.2.2)).getLast? =
      some 1 :=
  render_progress_strictly_increasing ["x".toList] (1 / 30) (by simp)

/-- C9: for every line list (even the empty one, where the placeholder
lines are substituted) and every `secondsPerLine` (even zero or negative,
where `framesPerLine` is clamped to 1), `totalFrames` is at least 1 and
every emitted progress value lies in the half-open interval (0, 1]. -/
theorem render_progress_in_unit_interval (lines : List (List Char))
    (d : ℚ) :
    1 ≤ totalFramesOf lines d ∧
    ∀ p ∈ (renderFrames lines d).map (fun f => f.2.2),
      0 < p ∧ p ≤ 1 := by
  have hT := totalFramesOf_pos lines d
  have hTq : (0 : ℚ) < (totalFramesOf lines d : ℚ) := by exact_mod_cast hT
  refine ⟨hT, ?_⟩
  intro p hp
  rw [renderFrames_eq, List.map_map] at hp
  simp only [List.mem_map, List.mem_range, Function.comp] at hp
  obtain ⟨i, hi, rfl⟩ := hp
  refine ⟨by positivity, ?_⟩
  rw [div_le_one hTq]
  exact_mod_cast Nat.succ_le_of_lt hi

/-- Witness for C9: the empty line list with `secondsPerLine = 1/30`
(clamped to one frame per line); the progress value 1/3 is emitted and lies
in (0, 1]. -/
theorem render_progress_in_unit_interval_witness :
    1 ≤ totalFramesOf [] (1 / 30) ∧
    (0 < (1 / 3 : ℚ) ∧ (1 / 3 : ℚ) ≤ 1) := by
  have h := render_progress_in_unit_interval [] (1 / 30)
  have hround : (⌊(1 / 30 : ℚ) * 1000 + 1 / 2⌋ : ℤ) = 33 := by norm_num
  have hf : framesPerLine (1 / 30) = 1 := by
    show max 1
      ⌊(((⌊(1 / 30 : ℚ) * 1000 + 1 / 2⌋ : ℤ) : ℚ) / 1000) * 30⌋ = 1
    rw [hround]; norm_num
  have hT3 : totalFramesOf [] (1 / 30) = 3 := by
    unfold totalFramesOf
    rw [hf]
    decide
  refine ⟨h.1, h.2 (1 / 3) ?_⟩
  rw [renderFrames_eq, hT3]
  simp only [List.map_map, List.mem_map, List.mem_range, Function.comp]
  refine ⟨0, by omega, ?_⟩
  push_cast
  norm_num

/-! ## Claim C8: line wrapper on short strings -/

/-- C8: a string of length at most 40 passes through the wrapper unchanged
up to trimming — it comes out as its trimmed self, and is discarded
entirely when trimming leaves nothing.  (The wrapper itself is a total
function on all inputs, as witnessed by `splitIntoLines` being a Lean
function.) -/
theorem wrapper_short_string_pass_through (t : List Char)
    (h : t.length ≤ 40) :
    splitIntoLines [t] = if jsTrim t = [] then [] else [jsTrim t] := by
  have hw : wrapLine t = [t] := by
    unfold wrapLine
    rw [if_neg (by omega : ¬ 40 < t.length)]
  unfold splitIntoLines
  rw [List.map_cons, List.map_nil, hw]
  by_cases he : jsTrim t = []
  · simp [he]
  · have hne : (jsTrim t).isEmpty = false := by
      simp [List.isEmpty_iff, he]
    simp [he, List.filter, hne]

/-- Witness for C8: the string `" hi "` (length 4) comes out trimmed. -/
theorem wrapper_short_string_pass_through_witness :
    splitIntoLines [" hi ".toList] =
      if jsTrim " hi ".toList = [] then [] else [jsTrim " hi ".toList] :=
  wrapper_short_string_pass_through " hi ".toList (by decide)

/-! ## Helper lemmas for the line-wrapper claim -/

theorem wordChar_not_ws {c : Char} (h : isWordChar c = true) :
    jsWhitespace c = false := by
  unfold isWordChar at h
  simp only [Bool.and_eq_true, Bool.not_eq_true'] at h
  exact h.2

theorem wordChar_dot {c : Char} (h : isWordChar c = true) :
    isDotChar c = true := by
  unfold isWordChar at h
  simp only [Bool.and_eq_true] at h
  exact h.1

theorem joinWords_cons (w : List Char) {ws : List (List Char)}
    (h : ws ≠ []) : joinWords (w :: ws) = w ++ ' ' :: joinWords ws := by
  cases ws with
  | nil => exact absurd rfl h
  | cons a t => rfl

theorem joinWords_append {a b : List (List Char)} (ha : a ≠ [])
    (hb : b ≠ []) :
    joinWords (a ++ b) = joinWords a ++ ' ' :: joinWords b := by
  induction a with
  | nil => exact absurd rfl ha
  | cons w t ih =>
      cases t with
      | nil =>
          rw [List.singleton_append, joinWords_cons w hb, joinWords]
      | cons w2 t2 =>
          have ht : w2 :: t2 ≠ [] := by simp
          have htb : w2 :: t2 ++ b ≠ [] := by simp
          rw [List.cons_append, joinWords_cons w htb, ih ht,
            joinWords_cons w ht]
          simp [List.append_assoc]

theorem head_length_le_joinWords (w : List Char) (ws : List (List Char)) :
    w.length ≤ (joinWords (w :: ws)).length := by
  cases ws with
  | nil => simp [joinWords]
  | cons a t =>
      rw [joinWords_cons w (by simp)]
      simp

theorem joinWords_length_pos {ws : List (List Char)}
    (hc : canonicalWords ws) : 1 ≤ (joinWords ws).length := by
  obtain ⟨hne, hw⟩ := hc
  cases ws with
  | nil => exact absurd rfl hne
  | cons w t =>
      have h1 : w ≠ [] := (hw w (List.mem_cons_self w t)).1
      have h2 : 1 ≤ w.length := by
        cases w with
        | nil => exact absurd rfl h1
        | cons _ _ => simp
      exact le_trans h2 (head_length_le_joinWords w t)

theorem mem_joinWords {c : Char} : ∀ {ws : List (List Char)},
    c ∈ joinWords ws → c = ' ' ∨ ∃ w ∈ ws, c ∈ w := by
  intro ws
  induction ws with
  | nil => intro h; simp [joinWords] at h
  | cons w t ih =>
      intro h
      cases t with
      | nil =>
          simp only [joinWords] at h
          exact Or.inr ⟨w, List.mem_cons_self w [], h⟩
      | cons w2 t2 =>
          rw [joinWords_cons w (by simp)] at h
          rcases List.mem_append.mp h with h | h
          · exact Or.inr ⟨w, List.mem_cons_self _ _, h⟩
          · rcases List.mem_cons.mp h with h | h
            · exact Or.inl h
            · rcases ih h with h | ⟨w3, hw3, hc3⟩
              · exact Or.inl h
              · exact Or.inr ⟨w3, List.mem_cons_of_mem _ hw3, hc3⟩

theorem dots_of_canonical {ws : List (List Char)} (hc : canonicalWords ws) :
    ∀ c ∈ joinWords ws, isDotChar c = true := by
  intro c hcmem
  rcases mem_joinWords hcmem with rfl | ⟨w, hwmem, hcw⟩
  · decide
  · exact wordChar_dot ((hc.2 w hwmem).2.2 c hcw)

theorem goodK_true_iff (l : List Char) (k : Nat) :
    goodK l k = true ↔
      1 ≤ k ∧ k ≤ l.length ∧ (∀ c ∈ l.take k, isDotChar c = true) ∧
      (k = l.length ∨ ∃ c, l[k]? = some c ∧ jsWhitespace c = true) := by
  unfold goodK
  rw [Bool.and_eq_true, Bool.and_eq_true, Bool.and_eq_true, Bool.or_eq_true]
  constructor
  · rintro ⟨⟨⟨h1, h2⟩, h3⟩, h4⟩
    refine ⟨by simpa using h1, by simpa using h2,
      List.all_eq_true.mp h3, ?_⟩
    rcases h4 with h4 | h4
    · exact Or.inl (by simpa using h4)
    · right
      cases hk : l[k]? with
      | none => rw [hk] at h4; simp at h4
      | some c => rw [hk] at h4; exact ⟨c, rfl, h4⟩
  · rintro ⟨h1, h2, h3, h4⟩
    refine ⟨⟨⟨by simpa using h1, by simpa using h2⟩,
      List.all_eq_true.mpr h3⟩, ?_⟩
    rcases h4 with h4 | h4
    · exact Or.inl (by simpa using h4)
    · obtain ⟨c, hk, hc⟩ := h4
      right
      rw [hk]
      exact hc

theorem bestK_some_goodK : ∀ {n k : Nat} {l : List Char},
    bestK l n = some k → goodK l k = true := by
  intro n
  induction n with
  | zero => intro k l h; simp [bestK] at h
  | succ m ih =>
      intro k l h
      rw [bestK] at h
      by_cases hg : goodK l (m + 1) = true
      · rw [if_pos hg] at h
        cases h
        exact hg
      · rw [if_neg hg] at h
        exact ih h

theorem bestK_eq_some {l : List Char} {m : Nat} (hm : goodK l m = true) :
    ∀ {n : Nat}, m ≤ n → (∀ k, m < k → k ≤ n → goodK l k = false) →
    bestK l n = some m := by
  intro n
  induction n with
  | zero =>
      intro hle _
      have h1 : 1 ≤ m := ((goodK_true_iff l m).mp hm).1
      omega
  | succ p ih =>
      intro hle hmax
      rw [bestK]
      by_cases he : m = p + 1
      · subst he
        rw [if_pos hm]
      · have hfalse : goodK l (p + 1) = false :=
          hmax (p + 1) (by omega) (le_refl _)
        rw [if_neg (by simp [hfalse])]
        exact ih (by omega) (fun k h1 h2 => hmax k h1 (by omega))

theorem matchesAux_nil : ∀ f, matchesAux f [] = [] := by
  intro f
  cases f <;> rfl

theorem matchesAux_fuel : ∀ fuel (l : List Char), l.length ≤ fuel →
    matchesAux fuel l = jsMatchAll l := by
  intro fuel
  induction fuel using Nat.strong_induction_on with
  | _ fuel ih =>
      intro l hlen
      cases l with
      | nil => rw [matchesAux_nil, jsMatchAll, List.length_nil, matchesAux_nil]
      | cons x t =>
          obtain ⟨f, rfl⟩ : ∃ f, fuel = f + 1 := by
            cases fuel with
            | zero => simp at hlen
            | succ f => exact ⟨f, rfl⟩
          have hlt : t.length ≤ f := by
            simp only [List.length_cons] at hlen
            omega
          show matchesAux (f + 1) (x :: t) = matchesAux (t.length + 1) (x :: t)
          cases htm : tryMatchLen (x :: t) with
          | none =>
              simp only [matchesAux, List.isEmpty_cons, Bool.false_eq_true,
                if_false, htm, List.tail_cons]
              have e1 : matchesAux f t = jsMatchAll t := ih f (by omega) t hlt
              have e2 : matchesAux t.length t = jsMatchAll t :=
                ih t.length (by omega) t (le_refl _)
              rw [e1, e2]
          | some k =>
              have hk : goodK (x :: t) k = true := bestK_some_goodK htm
              have h1 : 1 ≤ k := ((goodK_true_iff _ _).mp hk).1
              simp only [matchesAux, List.isEmpty_cons, Bool.false_eq_true,
                if_false, htm]
              congr 1
              have hdr : ((x :: t).drop
                  (if k = (x :: t).length then k else k + 1)).length
                    ≤ t.length := by
                rw [List.length_drop]
                simp only [List.length_cons]
                split <;> omega
              have e1 := ih f (by omega) _ (le_trans hdr hlt)
              have e2 := ih t.length (by omega) _ hdr
              rw [e1, e2]

theorem head_not_ws {ws : List (List Char)} (hc : canonicalWords ws) :
    ∀ c, (joinWords ws).head? = some c → jsWhitespace c = false := by
  intro c hcm
  obtain ⟨hne, hw⟩ := hc
  cases ws with
  | nil => exact absurd rfl hne
  | cons w t =>
      have hwne : w ≠ [] := (hw w (List.mem_cons_self _ _)).1
      cases w with
      | nil => exact absurd rfl hwne
      | cons c0 w2 =>
          have hhd : (joinWords ((c0 :: w2) :: t)).head? = some c0 := by
            cases t with
            | nil => rfl
            | cons a s => rw [joinWords_cons _ (by simp)]; rfl
          have hword :=
            (hw (c0 :: w2) (List.mem_cons_self _ _)).2.2 c0
              (List.mem_cons_self _ _)
          rw [hhd] at hcm
          cases hcm
          exact wordChar_not_ws hword

theorem getLast_not_ws : ∀ {ws : List (List Char)}, canonicalWords ws →
    ∀ c, (joinWords ws).getLast? = some c → jsWhitespace c = false := by
  intro ws
  induction ws with
  | nil => intro hc; exact absurd rfl hc.1
  | cons w t ih =>
      intro hc c hcm
      cases t with
      | nil =>
          have hmem : c ∈ w := List.mem_of_mem_getLast? hcm
          exact wordChar_not_ws ((hc.2 w (by simp)).2.2 c hmem)
      | cons w2 t2 =>
          rw [joinWords_cons _ (by simp), List.getLast?_append] at hcm
          have hct : canonicalWords (w2 :: t2) :=
            ⟨by simp, fun x hx => hc.2 x (List.mem_cons_of_mem _ hx)⟩
          have hJne : joinWords (w2 :: t2) ≠ [] := by
            intro habs
            have := joinWords_length_pos hct
            rw [habs] at this
            simp at this
          have hgl : (' ' :: joinWords (w2 :: t2)).getLast? =
              (joinWords (w2 :: t2)).getLast? := by
            cases hJ : joinWords (w2 :: t2) with
            | nil => exact absurd hJ hJne
            | cons a s => rw [List.getLast?_cons_cons]
          rw [hgl] at hcm
          obtain ⟨d, hd⟩ : ∃ d, (joinWords (w2 :: t2)).getLast? = some d := by
            rcases hJv : (joinWords (w2 :: t2)).getLast? with _ | d
            · rw [List.getLast?_eq_none_iff] at hJv
              exact absurd hJv hJne
            · exact ⟨d, rfl⟩
          rw [hd] at hcm
          cases hcm
          exact ih hct c hd

theorem dropWhile_reverse_eq {l : List Char}
    (hl : ∀ c, l.getLast? = some c → jsWhitespace c = false) :
    l.reverse.dropWhile jsWhitespace = l.reverse := by
  cases hr : l.reverse with
  | nil => rfl
  | cons a t =>
      have hg : l.getLast? = some a := by
        rw [← List.head?_reverse, hr]
        rfl
      rw [List.dropWhile_cons, if_neg (by simp [hl a hg])]

theorem jsTrim_no_ws_ends {l : List Char}
    (hh : ∀ c, l.head? = some c → jsWhitespace c = false)
    (hl : ∀ c, l.getLast? = some c → jsWhitespace c = false) :
    jsTrim l = l := by
  unfold jsTrim
  have h1 : l.dropWhile jsWhitespace = l := by
    cases l with
    | nil => rfl
    | cons a t => rw [List.dropWhile_cons, if_neg (by simp [hh a rfl])]
  rw [h1, dropWhile_reverse_eq hl, List.reverse_reverse]

theorem jsTrim_append_space {l : List Char} (hne : l ≠ [])
    (hh : ∀ c, l.head? = some c → jsWhitespace c = false)
    (hl : ∀ c, l.getLast? = some c → jsWhitespace c = false) :
    jsTrim (l ++ [' ']) = l := by
  unfold jsTrim
  have h1 : (l ++ [' ']).dropWhile jsWhitespace = l ++ [' '] := by
    cases l with
    | nil => exact absurd rfl hne
    | cons a t =>
        rw [List.cons_append, List.dropWhile_cons,
          if_neg (by simp [hh a rfl])]
  rw [h1, List.reverse_append]
  simp only [List.reverse_cons, List.reverse_nil, List.nil_append,
    List.singleton_append]
  rw [List.dropWhile_cons, if_pos (by decide),
    dropWhile_reverse_eq hl, List.reverse_reverse]

theorem tryMatchLen_small {ws : List (List Char)} (hc : canonicalWords ws)
    (hlen : (joinWords ws).length ≤ 40) :
    tryMatchLen (joinWords ws) = some (joinWords ws).length := by
  have hpos := joinWords_length_pos hc
  have hgood : goodK (joinWords ws) (joinWords ws).length = true := by
    rw [goodK_true_iff]
    exact ⟨hpos, le_refl _,
      fun c hcm => dots_of_canonical hc c (List.mem_of_mem_take hcm),
      Or.inl rfl⟩
  have hmax : ∀ k, (joinWords ws).length < k → k ≤ 40 →
      goodK (joinWords ws) k = false := by
    intro k hk1 _
    rw [Bool.eq_false_iff]
    intro habs
    have h2 := ((goodK_true_iff _ _).mp habs).2.1
    omega
  exact bestK_eq_some hgood hlen hmax

theorem jsMatchAll_small {ws : List (List Char)} (hc : canonicalWords ws)
    (hlen : (joinWords ws).length ≤ 40) :
    jsMatchAll (joinWords ws) = [joinWords ws] := by
  have hpos := joinWords_length_pos hc
  have hne : joinWords ws ≠ [] := by
    intro habs
    rw [habs] at hpos
    simp at hpos
  have hnb : (joinWords ws).isEmpty = false := by
    simpa [List.isEmpty_iff] using hne
  obtain ⟨f, hf⟩ : ∃ f, (joinWords ws).length = f + 1 :=
    ⟨(joinWords ws).length - 1, by omega⟩
  rw [jsMatchAll, hf]
  simp only [matchesAux, hnb, Bool.false_eq_true, if_false,
    tryMatchLen_small hc hlen]
  simp only [if_true]
  rw [List.take_length, List.drop_length, matchesAux_nil]

theorem grow_group : ∀ (rest g : List (List Char)), g ≠ [] →
    (joinWords g).length ≤ 40 →
    40 < (joinWords (g ++ rest)).length →
    ∃ g2 w2 rest2, g ++ rest = g2 ++ w2 :: rest2 ∧ g2 ≠ [] ∧
      (joinWords g2).length ≤ 40 ∧
      40 < (joinWords g2).length + 1 + w2.length := by
  intro rest
  induction rest with
  | nil =>
      intro g hg hle hgt
      rw [List.append_nil] at hgt
      exact absurd hgt (by omega)
  | cons w2 rest2 ih =>
      intro g hg hle hgt
      by_cases hcase : (joinWords g).length + 1 + w2.length ≤ 40
      · have hg2 : g ++ [w2] ≠ [] := by simp
        have hjoin : joinWords (g ++ [w2]) = joinWords g ++ ' ' :: w2 :=
          joinWords_append hg (by simp)
        have hlen2 : (joinWords (g ++ [w2])).length ≤ 40 := by
          rw [hjoin]
          simp only [List.length_append, List.length_cons]
          omega
        have hass : g ++ [w2] ++ rest2 = g ++ w2 :: rest2 := by
          rw [List.append_assoc]
          rfl
        have hgt2 : 40 < (joinWords (g ++ [w2] ++ rest2)).length := by
          rw [hass]
          exact hgt
        obtain ⟨g3, w3, rest3, heq, h3⟩ := ih (g ++ [w2]) hg2 hlen2 hgt2
        refine ⟨g3, w3, rest3, ?_, h3⟩
        rw [← hass]
        exact heq
      · exact ⟨g, w2, rest2, rfl, hg, hle, by omega⟩

theorem exists_greedy_split {ws : List (List Char)}
    (hc : canonicalWords ws) (hlen : 40 < (joinWords ws).length) :
    ∃ g w2 rest2, ws = g ++ w2 :: rest2 ∧ g ≠ [] ∧
      (joinWords g).length ≤ 40 ∧
      40 < (joinWords g).length + 1 + w2.length := by
  obtain ⟨hne, hw⟩ := hc
  cases ws with
  | nil => exact absurd rfl hne
  | cons w t =>
      have hw40 : (joinWords [w]).length ≤ 40 :=
        (hw w (List.mem_cons_self _ _)).2.1
      exact grow_group t [w] (by simp) hw40 (by simpa using hlen)

theorem tryMatchLen_big {g : List (List Char)} {w2 : List Char}
    {rest2 : List (List Char)} (hc : canonicalWords (g ++ w2 :: rest2))
    (hg : g ≠ []) (hGle : (joinWords g).length ≤ 40)
    (hbig : 40 < (joinWords g).length + 1 + w2.length) :
    tryMatchLen (joinWords (g ++ w2 :: rest2)) =
      some (joinWords g).length := by
  have hsplit : joinWords (g ++ w2 :: rest2) =
      joinWords g ++ ' ' :: joinWords (w2 :: rest2) :=
    joinWords_append hg (by simp)
  have hcg : canonicalWords g :=
    ⟨hg, fun w hw => hc.2 w (List.mem_append_left _ hw)⟩
  have hcr : canonicalWords (w2 :: rest2) :=
    ⟨by simp, fun w hw => hc.2 w (List.mem_append_right _ hw)⟩
  have hGpos : 1 ≤ (joinWords g).length := joinWords_length_pos hcg
  have hRw2 : w2.length ≤ (joinWords (w2 :: rest2)).length :=
    head_length_le_joinWords w2 rest2
  have hslen : (joinWords (g ++ w2 :: rest2)).length =
      (joinWords g).length + 1 + (joinWords (w2 :: rest2)).length := by
    rw [hsplit]
    simp only [List.length_append, List.length_cons]
    omega
  have hgood : goodK (joinWords (g ++ w2 :: rest2))
      (joinWords g).length = true := by
    rw [goodK_true_iff]
    refine ⟨hGpos, by omega, fun c hcm =>
      dots_of_canonical hc c (List.mem_of_mem_take hcm), Or.inr ⟨' ', ?_, by decide⟩⟩
    rw [hsplit, List.getElem?_append_right (le_refl _), Nat.sub_self,
      List.getElem?_cons_zero]
  have hmax : ∀ k, (joinWords g).length < k → k ≤ 40 →
      goodK (joinWords (g ++ w2 :: rest2)) k = false := by
    intro k hk1 hk2
    rw [Bool.eq_false_iff]
    intro habs
    obtain ⟨_, _, _, hbound⟩ := (goodK_true_iff _ _).mp habs
    rcases hbound with hb | ⟨c, hgetc, hwsc⟩
    · omega
    · obtain ⟨tl, htl⟩ : ∃ tl, joinWords (w2 :: rest2) = w2 ++ tl := by
        cases rest2 with
        | nil => exact ⟨[], by simp [joinWords]⟩
        | cons a t => exact ⟨' ' :: joinWords (a :: t),
            joinWords_cons w2 (by simp)⟩
      have hj : k - (joinWords g).length - 1 < w2.length := by omega
      rw [hsplit, List.getElem?_append_right (by omega),
        show k - (joinWords g).length = (k - (joinWords g).length - 1) + 1
          from by omega,
        List.getElem?_cons_succ, htl, List.getElem?_append, if_pos hj]
        at hgetc
      have hcw2 : c ∈ w2 := List.getElem?_mem hgetc
      have := wordChar_not_ws ((hcr.2 w2 (List.mem_cons_self _ _)).2.2 c hcw2)
      rw [this] at hwsc
      cases hwsc
  exact bestK_eq_some hgood hGle hmax

theorem jsMatchAll_big {g : List (List Char)} {w2 : List Char}
    {rest2 : List (List Char)} (hc : canonicalWords (g ++ w2 :: rest2))
    (hg : g ≠ []) (hGle : (joinWords g).length ≤ 40)
    (hbig : 40 < (joinWords g).length + 1 + w2.length) :
    jsMatchAll (joinWords (g ++ w2 :: rest2)) =
      (joinWords g ++ [' ']) :: jsMatchAll (joinWords (w2 :: rest2)) := by
  have hsplit : joinWords (g ++ w2 :: rest2) =
      joinWords g ++ ' ' :: joinWords (w2 :: rest2) :=
    joinWords_append hg (by simp)
  have hcg : canonicalWords g :=
    ⟨hg, fun w hw => hc.2 w (List.mem_append_left _ hw)⟩
  have hGpos : 1 ≤ (joinWords g).length := joinWords_length_pos hcg
  have hslen : (joinWords (g ++ w2 :: rest2)).length =
      (joinWords g).length + 1 + (joinWords (w2 :: rest2)).length := by
    rw [hsplit]
    simp only [List.length_append, List.length_cons]
    omega
  have hne : joinWords (g ++ w2 :: rest2) ≠ [] := by
    intro habs
    rw [habs] at hslen
    simp at hslen
    omega
  have hnb : (joinWords (g ++ w2 :: rest2)).isEmpty = false := by
    simpa [List.isEmpty_iff] using hne
  obtain ⟨f, hf⟩ : ∃ f, (joinWords (g ++ w2 :: rest2)).length = f + 1 :=
    ⟨(joinWords (g ++ w2 :: rest2)).length - 1, by omega⟩
  rw [jsMatchAll, hf]
  simp only [matchesAux, hnb, Bool.false_eq_true, if_false,
    tryMatchLen_big hc hg hGle hbig]
  rw [if_neg (by omega)]
  have htake : List.take ((joinWords g).length + 1)
      (joinWords (g ++ w2 :: rest2)) = joinWords g ++ [' '] := by
    rw [hsplit, List.take_append 1]
    rfl
  have hdrop : List.drop ((joinWords g).length + 1)
      (joinWords (g ++ w2 :: rest2)) = joinWords (w2 :: rest2) := by
    rw [hsplit, List.drop_append 1]
    rfl
  rw [htake, hdrop]
  have hfuel : (joinWords (w2 :: rest2)).length ≤ f := by omega
  rw [matchesAux_fuel f _ hfuel]

theorem jsMatchAll_canonical : ∀ (n : Nat) (ws : List (List Char)),
    ws.length ≤ n → canonicalWords ws →
    jsMatchAll (joinWords ws) ≠ [] ∧
    (∀ c ∈ (jsMatchAll (joinWords ws)).map jsTrim,
        c ≠ [] ∧ c.length ≤ 40) ∧
    joinWords ((jsMatchAll (joinWords ws)).map jsTrim) = joinWords ws ∧
    (40 < (joinWords ws).length →
      2 ≤ ((jsMatchAll (joinWords ws)).map jsTrim).length) := by
  intro n
  induction n with
  | zero =>
      intro ws hlen hc
      have hne := hc.1
      cases ws with
      | nil => exact absurd rfl hne
      | cons w t => simp at hlen
  | succ p ih =>
      intro ws hlen hc
      have hjne : joinWords ws ≠ [] := by
        intro habs
        have := joinWords_length_pos hc
        rw [habs] at this
        simp at this
      by_cases hsmall : (joinWords ws).length ≤ 40
      · rw [jsMatchAll_small hc hsmall]
        have htr : jsTrim (joinWords ws) = joinWords ws :=
          jsTrim_no_ws_ends (head_not_ws hc) (getLast_not_ws hc)
        refine ⟨by simp, ?_, ?_, ?_⟩
        · intro c hcm
          simp only [List.map_cons, List.map_nil,
            List.mem_singleton] at hcm
          subst hcm
          rw [htr]
          exact ⟨hjne, hsmall⟩
        · simp only [List.map_cons, List.map_nil, htr]
          rfl
        · intro habs
          omega
      · push_neg at hsmall
        obtain ⟨g, w2, rest2, hws, hg, hGle, hbig⟩ :=
          exists_greedy_split hc (by omega)
        subst hws
        have hcg : canonicalWords g :=
          ⟨hg, fun w hw => hc.2 w (List.mem_append_left _ hw)⟩
        have hcr : canonicalWords (w2 :: rest2) :=
          ⟨by simp, fun w hw => hc.2 w (List.mem_append_right _ hw)⟩
        have hGne : joinWords g ≠ [] := by
          intro habs
          have := joinWords_length_pos hcg
          rw [habs] at this
          simp at this
        rw [jsMatchAll_big hc hg hGle hbig]
        have hrlen : (w2 :: rest2).length ≤ p := by
          have hg1 : 1 ≤ g.length := by
            cases g with
            | nil => exact absurd rfl hg
            | cons _ _ => simp
          simp only [List.length_append, List.length_cons] at hlen ⊢
          omega
        obtain ⟨ihne, ihchunks, ihjoin, _⟩ := ih (w2 :: rest2) hrlen hcr
        have hGtrim : jsTrim (joinWords g ++ [' ']) = joinWords g :=
          jsTrim_append_space hGne (head_not_ws hcg) (getLast_not_ws hcg)
        have hcs_ne : (jsMatchAll (joinWords (w2 :: rest2))).map jsTrim
            ≠ [] := by
          intro habs
          rw [List.map_eq_nil_iff] at habs
          exact ihne habs
        refine ⟨by simp, ?_, ?_, ?_⟩
        · intro c hcm
          rw [List.map_cons] at hcm
          rcases List.mem_cons.mp hcm with rfl | hcm
          · rw [hGtrim]
            exact ⟨hGne, hGle⟩
          · exact ihchunks c hcm
        · rw [List.map_cons, hGtrim, joinWords_cons _ hcs_ne, ihjoin,
            joinWords_append hg (by simp)]
        · intro _
          rw [List.map_cons]
          have h1 : 1 ≤ ((jsMatchAll
              (joinWords (w2 :: rest2))).map jsTrim).length := by
            cases h : (jsMatchAll (joinWords (w2 :: rest2))).map jsTrim with
            | nil => exact absurd h hcs_ne
            | cons _ _ => simp
          simp only [List.length_cons]
          omega

/-! ## Claim C2: line wrapper on long strings -/

/-- Counterexample for C2: a 50-character string with no whitespace at all.
The regex `/.{1,40}(\s|$)/g` finds a single match — the final 40
characters — so the wrapper returns one chunk (and silently drops the first
10 characters), contradicting the claimed "at least 2 chunks". -/
theorem wrapper_long_string_counterexample :
    40 < (List.replicate 50 'a').length ∧
    ¬ 2 ≤ (splitIntoLines [List.replicate 50 'a']).length := by
  decide

/-- C2 (amended): for every input string of length greater than 40 that is
in canonical word form — one or more non-empty whitespace-free words, each
at most 40 characters long, joined by single spaces — the wrapper returns
at least 2 chunks, every chunk non-empty and at most 40 characters, and
joining the chunks with single spaces reconstructs the original string. -/
theorem wrapper_long_canonical_string (ws : List (List Char))
    (hc : canonicalWords ws) (hlen : 40 < (joinWords ws).length) :
    2 ≤ (splitIntoLines [joinWords ws]).length ∧
    (∀ c ∈ splitIntoLines [joinWords ws], c ≠ [] ∧ c.length ≤ 40) ∧
    joinWords (splitIntoLines [joinWords ws]) = joinWords ws := by
  obtain ⟨hne, hchunks, hjoin, hcount⟩ :=
    jsMatchAll_canonical ws.length ws (le_refl _) hc
  have hsplit : splitIntoLines [joinWords ws] =
      (jsMatchAll (joinWords ws)).map jsTrim := by
    unfold splitIntoLines
    have hw : wrapLine (joinWords ws) = jsMatchAll (joinWords ws) := by
      unfold wrapLine
      rw [if_pos hlen]
      cases h : jsMatchAll (joinWords ws) with
      | nil => exact absurd h hne
      | cons a t => rfl
    rw [List.map_cons, List.map_nil, hw]
    simp only [List.flatten_cons, List.flatten_nil, List.append_nil]
    apply List.filter_eq_self.mpr
    intro a ha
    have := (hchunks a ha).1
    simp [List.isEmpty_iff, this]
  rw [hsplit]
  exact ⟨hcount hlen, hchunks, hjoin⟩

/-- Witness for C2 (amended): two 20-character words joined by one space
(41 characters in total). -/
theorem wrapper_long_canonical_string_witness :
    2 ≤ (splitIntoLines
      [joinWords [List.replicate 20 'a', List.replicate 20 'b']]).length ∧
    (∀ c ∈ splitIntoLines
        [joinWords [List.replicate 20 'a', List.replicate 20 'b']],
      c ≠ [] ∧ c.length ≤ 40) ∧
    joinWords (splitIntoLines
        [joinWords [List.replicate 20 'a', List.replicate 20 'b']]) =
      joinWords [List.replicate 20 'a', List.replicate 20 'b'] :=
  wrapper_long_canonical_string
    [List.replicate 20 'a', List.replicate 20 'b']
    (by unfold canonicalWords; decide) (by decide)
